import Mathlib

/-!
Verification of the lsmdb write path: WAL codec (encode_record / decode_record),
MemTable conflict resolution, and Engine (DB) orchestration, shallowly embedded
from the Rust sources (src/wal.rs, src/memtable.rs, src/entry.rs, src/lib.rs).

Bytes are modelled as `List Nat` (each element a u8 value), machine integers as
`Nat` with explicit bounds / truncation where overflow matters, fallible code as
`Except`. The MemTable (a BTreeMap in the source) is modelled as a finite map
`List Nat → Option Entry`; the claims under study concern only point lookups and
point updates, never iteration order.
-/

namespace Lsmdb

/-- Entry, from src/entry.rs: a live value or a tombstone, each tagged with a
sequence number. -/
inductive Entry : Type where
  | Value (seq_no : Nat) (val : List Nat)
  | Tombstone (seq_no : Nat)
deriving DecidableEq, Repr

/-- Entry::seq_no from src/entry.rs. -/
def Entry.seq_no : Entry → Nat
  | .Value s _ => s
  | .Tombstone s => s

/-- WalDecodeError from src/wal.rs: clean end of stream vs corruption with a
message naming the violated invariant. -/
inductive WalDecodeError : Type where
  | CleanEOF
  | Corruption (what : String)
deriving DecidableEq, Repr

/-- Op from src/wal.rs (repr u8: Put = 1, Delete = 2). -/
inductive Op : Type where
  | Put
  | Delete
deriving DecidableEq, Repr

/-- The u8 discriminant of an Op (the `rec.op.clone() as u8` cast in
encode_record). -/
def Op.toByte : Op → Nat
  | .Put => 1
  | .Delete => 2

/-- TryFrom<u8> for Op from src/wal.rs. -/
def Op.tryFrom (val : Nat) : Except WalDecodeError Op :=
  if val = 1 then .ok Op.Put
  else if val = 2 then .ok Op.Delete
  else .error (.Corruption "invalid op code found")

/-- WALRecord from src/wal.rs. -/
structure WALRecord : Type where
  op : Op
  seq_no : Nat
  key : List Nat
  val : List Nat
deriving DecidableEq, Repr

/-- DBError from src/types.rs, reduced to the discriminant plus its message
string (paths and io sources are irrelevant to the claims). -/
inductive DBError : Type where
  | IoErr (op : String)
  | Corruption (what : String)
  | WalErr (what : String)
  | Codec (context : String)
  | InvalidConfig (what : String)
deriving DecidableEq, Repr

/-! ## Little-endian integer codecs (to_le_bytes / from_le_bytes) -/

/-- The 4 little-endian bytes of a u32 (`u32::to_le_bytes`). -/
def u32le (n : Nat) : List Nat :=
  [n % 256, n / 256 % 256, n / 256 / 256 % 256, n / 256 / 256 / 256 % 256]

/-- The 8 little-endian bytes of a u64 (`u64::to_le_bytes`). -/
def u64le (n : Nat) : List Nat :=
  [n % 256, n / 256 % 256, n / 256 / 256 % 256, n / 256 / 256 / 256 % 256,
   n / 256 / 256 / 256 / 256 % 256, n / 256 / 256 / 256 / 256 / 256 % 256,
   n / 256 / 256 / 256 / 256 / 256 / 256 % 256,
   n / 256 / 256 / 256 / 256 / 256 / 256 / 256 % 256]

/-- read_u32_le from src/wal.rs: reads the first four bytes of the slice as a
little-endian u32, or None when fewer than four bytes remain. -/
def read_u32_le : List Nat → Option Nat
  | b0 :: b1 :: b2 :: b3 :: _ => some (b0 + 256 * b1 + 65536 * b2 + 16777216 * b3)
  | _ => none

/-- read_u64_le from src/wal.rs. -/
def read_u64_le : List Nat → Option Nat
  | b0 :: b1 :: b2 :: b3 :: b4 :: b5 :: b6 :: b7 :: _ =>
      some (b0 + 256 * b1 + 65536 * b2 + 16777216 * b3 + 4294967296 * b4 +
            1099511627776 * b5 + 281474976710656 * b6 + 72057594037927936 * b7)
  | _ => none

/-! ## CRC-32 (crc32fast::hash: reflected CRC-32/ISO-HDLC) -/

/-- One shift-xor round of the reflected CRC-32 with polynomial 0xEDB88320. -/
def crc32_step (c : Nat) : Nat :=
  if c % 2 = 1 then Nat.xor (c / 2) 0xEDB88320 else c / 2

/-- n rounds of crc32_step. -/
def crc32_rounds : Nat → Nat → Nat
  | 0, c => c
  | n + 1, c => crc32_rounds n (crc32_step c)

/-- Fold one input byte (a u8, hence the mod 256) into the running CRC. -/
def crc32_byte (c b : Nat) : Nat := crc32_rounds 8 (Nat.xor c (b % 256))

/-- Fold a byte string into the running CRC. -/
def crc32_aux : List Nat → Nat → Nat
  | [], c => c
  | b :: rest, c => crc32_aux rest (crc32_byte c b)

/-- crc32fast::hash: init 0xFFFFFFFF, final xor 0xFFFFFFFF. -/
def crc32 (data : List Nat) : Nat := Nat.xor (crc32_aux data 0xFFFFFFFF) 0xFFFFFFFF

/-! ## WAL record codec (src/wal.rs) -/

/-- encode_record from src/wal.rs. Layout:
[len u32][op u8][seq u64][key_len u32][val_len u32][key][val][crc32 u32],
where len counts body plus the 4 crc bytes, and the crc covers the body only.
The source converts key/val lengths to u32 with `expect` (a panic on overflow);
the theorems below restrict to records whose lengths fit, as the claims do. -/
def encode_record (rec : WALRecord) : List Nat :=
  let body := rec.op.toByte ::
    (u64le rec.seq_no ++ u32le rec.key.length ++ u32le rec.val.length ++ rec.key ++ rec.val)
  let crc := crc32 body
  let len := body.length + 4
  u32le len ++ body ++ u32le crc

/-- decode_record from src/wal.rs: parses one record at `offset`, returning the
record and the offset one past it, or CleanEOF / Corruption. Mirrors the source
control flow branch for branch. -/
def decode_record (buf : List Nat) (offset : Nat) (max_record_len : Nat) :
    Except WalDecodeError (WALRecord × Nat) :=
  if buf.length - offset < 4 then .error .CleanEOF
  else
    match read_u32_le (buf.drop offset) with
    | none => .error .CleanEOF
    | some len =>
      if len = 0 ∨ max_record_len < len then .error (.Corruption "invalid len")
      else
        if buf.length - offset < 4 + len then .error .CleanEOF
        else
          let rest_of_buf := (buf.drop (offset + 4)).take len
          if rest_of_buf.length < 4 then .error (.Corruption "record too short")
          else
            let body_len := rest_of_buf.length - 4
            let body := rest_of_buf.take body_len
            match read_u32_le (rest_of_buf.drop body_len) with
            | none => .error (.Corruption "missing crc")
            | some crc_expected =>
              if crc32 body ≠ crc_expected then .error (.Corruption "crc mismatch")
              else
                if body.length < 1 + 8 + 4 + 4 then .error (.Corruption "body too short")
                else
                  let op := body.getD 0 0
                  match read_u64_le (body.drop 1) with
                  | none => .error (.Corruption "bad seq")
                  | some seq_no =>
                    match read_u32_le (body.drop (1 + 8)) with
                    | none => .error (.Corruption "bad seq")
                    | some key_len =>
                      match read_u32_le (body.drop (1 + 8 + 4)) with
                      | none => .error (.Corruption "bad seq")
                      | some val_len =>
                        if key_len = 0 then .error (.Corruption "key_len is 0")
                        else
                          if 1 + 8 + 4 + 4 + key_len + val_len ≠ body.length then
                            .error (.Corruption
                              "length mismatch - body len doesnt match what is described in payload metadata")
                          else
                            let key := (body.drop (1 + 8 + 4 + 4)).take key_len
                            let val := ((body.drop (1 + 8 + 4 + 4)).drop key_len).take val_len
                            match Op.tryFrom op with
                            | .error e => .error e
                            | .ok op2 => .ok (⟨op2, seq_no, key, val⟩, offset + (4 + len))

/-! ## MemTable (src/memtable.rs) -/

/-- The MemTable, src/memtable.rs: BTreeMap from key bytes to Entry, modelled
as a finite map by its lookup function. -/
def MemTable : Type := List Nat → Option Entry

/-- The empty MemTable (BTreeMap::new). -/
def emptyMT : MemTable := fun _ => none

/-- Map update (BTreeMap insert / in-place entry replacement). -/
def mtInsert (mem : MemTable) (k : List Nat) (e : Entry) : MemTable :=
  fun k2 => if k2 = k then some e else mem k2

/-- memtable::put from src/memtable.rs: reject the empty key with a Codec
error; otherwise `entry(key).and_modify(replace if existing seq_no is strictly
smaller).or_insert(new value)`. -/
def memtable_put (mem : MemTable) (key val : List Nat) (seq_no : Nat) :
    Except DBError MemTable :=
  if key.length = 0 then .error (.Codec "empty key")
  else
    match mem key with
    | some v =>
        .ok (if v.seq_no < seq_no then mtInsert mem key (.Value seq_no val) else mem)
    | none => .ok (mtInsert mem key (.Value seq_no val))

/-! ## WAL replay and the Engine (src/lib.rs) -/

/-- Modelled from the spec: the per-record application step of
`WAL::replay_into`, which is invoked by DB::new in src/lib.rs but whose body is
not present under src/. Spec 4.3: apply "each successfully decoded Put as a
MemTable put and each Delete as a MemTable tombstone-insert (both keyed by the
record's own sequence number)", the tombstone-insert being the insert-if-absent
primitive of spec 4.1. -/
def applyRecord (mem : MemTable) (rec : WALRecord) : Except DBError MemTable :=
  match rec.op with
  | .Put => memtable_put mem rec.key rec.val rec.seq_no
  | .Delete =>
      .ok (match mem rec.key with
           | some _ => mem
           | none => mtInsert mem rec.key (.Tombstone rec.seq_no))

/-- Modelled from the spec: the decode loop of `WAL::replay_into` (missing from
src/), with explicit fuel for termination. Spec 4.3: decode at increasing
offsets from the start; CleanEOF stops successfully, Corruption aborts and
propagates. Each successful decode advances the offset by at least five bytes,
so the fuel supplied by replay_into never runs out. -/
def replayLoop : Nat → List Nat → Nat → MemTable → Nat → Except DBError MemTable
  | 0, _, _, _, _ => .error (.WalErr "replay did not terminate")
  | fuel + 1, buf, offset, mem, max =>
    match decode_record buf offset max with
    | .error .CleanEOF => .ok mem
    | .error (.Corruption s) => .error (.Corruption s)
    | .ok (rec, next) =>
      match applyRecord mem rec with
      | .error e => .error e
      | .ok mem2 => replayLoop fuel buf next mem2 max

/-- Modelled from the spec: `WAL::replay_into` (missing from src/), reading the
entire log from offset 0. -/
def replay_into (buf : List Nat) (mem : MemTable) (max : Nat) :
    Except DBError MemTable :=
  replayLoop (buf.length + 1) buf 0 mem max

/-- The Engine state of src/lib.rs reduced to the fields the claims concern:
the MemTable, the sequence of records appended to the WAL this session, and
next_seq_no. -/
structure DB : Type where
  mem_table : MemTable
  wal : List WALRecord
  next_seq_no : Nat

/-- DB::new from src/lib.rs: replay the WAL file into a fresh MemTable (unless
disabled), then start with next_seq_no = 0. The wal-bytes argument stands for
the contents of the opened WAL file; I/O on the file handle itself is not
modelled. -/
def DB.new (walBytes : List Nat) (max_record_len : Nat) (disableReplay : Bool) :
    Except DBError DB :=
  if disableReplay then .ok ⟨emptyMT, [], 0⟩
  else
    match replay_into walBytes emptyMT max_record_len with
    | .error e => .error e
    | .ok mem => .ok ⟨mem, [], 0⟩

/-- DB::put from src/lib.rs: build a WALRecord carrying the current
next_seq_no, append it to the WAL, then apply the same key/value/seq_no to the
MemTable, then increment next_seq_no. `appendErr` models the outcome of the
WAL append I/O (`some e` = the underlying write/flush/sync failed with e):
on failure the error is returned before the MemTable or counter is touched.
The function returns the call's result together with the post-state, since the
source mutates `self` in place. -/
def DB.put (db : DB) (key val : List Nat) (appendErr : Option DBError) :
    Except DBError Unit × DB :=
  let wal_record : WALRecord := ⟨Op.Put, db.next_seq_no, key, val⟩
  match appendErr with
  | some e => (.error e, db)
  | none =>
    let db1 : DB := { db with wal := db.wal ++ [wal_record] }
    match memtable_put db1.mem_table key val db.next_seq_no with
    | .error e => (.error e, db1)
    | .ok mem2 => (.ok (), { db1 with mem_table := mem2, next_seq_no := db.next_seq_no + 1 })

/-- DB::delete from src/lib.rs: reject the empty key with a Codec error before
doing anything; otherwise tombstone-insert-if-absent into the MemTable with the
current next_seq_no, then increment it. Note the source's delete never touches
the WAL. -/
def DB.delete (db : DB) (key : List Nat) : Except DBError Unit × DB :=
  if key.length = 0 then (.error (.Codec "key cannot be empty"), db)
  else
    let mem2 := match db.mem_table key with
      | some _ => db.mem_table
      | none => mtInsert db.mem_table key (.Tombstone db.next_seq_no)
    (.ok (), { db with mem_table := mem2, next_seq_no := db.next_seq_no + 1 })

/-- A DB call issued by a caller, for reasoning about call sequences. A put
carries the modelled outcome of its WAL-append I/O. -/
inductive Call : Type where
  | put (key val : List Nat) (appendErr : Option DBError)
  | delete (key : List Nat)

/-- Run one call against the engine state, keeping the post-state (results are
returned to the caller and do not affect subsequent state). -/
def DB.step (db : DB) : Call → DB
  | .put k v e => (DB.put db k v e).2
  | .delete k => (DB.delete db k).2

/-- Run a sequence of calls. -/
def DB.run (db : DB) (calls : List Call) : DB := calls.foldl DB.step db

/-! ## Validity of a record, as the claims constrain it -/

/-- A record whose fields fit the wire format (key/value lengths fit u32, the
sequence number fits u64 as its Rust type forces), whose key is non-empty, and
whose encoding is within max_record_len. -/
def ValidRecord (r : WALRecord) (max : Nat) : Prop :=
  r.key ≠ [] ∧ r.key.length < 4294967296 ∧ r.val.length < 4294967296 ∧
    r.seq_no < 18446744073709551616 ∧ (encode_record r).length ≤ max

instance (r : WALRecord) (max : Nat) : Decidable (ValidRecord r max) := by
  unfold ValidRecord
  infer_instance

/-- The checksummed body of an encoded record:
[op u8][seq u64][key_len u32][val_len u32][key][val]. -/
def recBody (rec : WALRecord) : List Nat :=
  rec.op.toByte ::
    (u64le rec.seq_no ++ u32le rec.key.length ++ u32le rec.val.length ++ rec.key ++ rec.val)

/-- The concatenation of the encodings of a list of records. -/
def joinEnc (recs : List WALRecord) : List Nat := (recs.map encode_record).flatten

/-- The pure effect of replaying one record into the MemTable: a Put is a
memtable put, a Delete is a tombstone-insert-if-absent, each keyed by the
record's own sequence number. -/
def applyPure (mem : MemTable) (rec : WALRecord) : MemTable :=
  match rec.op with
  | .Put =>
      match mem rec.key with
      | some v =>
          if v.seq_no < rec.seq_no then mtInsert mem rec.key (.Value rec.seq_no rec.val) else mem
      | none => mtInsert mem rec.key (.Value rec.seq_no rec.val)
  | .Delete =>
      match mem rec.key with
      | some _ => mem
      | none => mtInsert mem rec.key (.Tombstone rec.seq_no)

/-- True exactly when the call is a put whose key encodes to the empty byte
string. -/
def callHasEmptyPutKey : Call → Bool
  | .put k _ _ => k.isEmpty
  | .delete _ => false

/-- The claim's CRC condition: the record's trailing CRC32 exists and differs
from the CRC32 of the record body (the record minus its trailing four bytes).
`rest` is the record's bytes after the length prefix; `len` its length field. -/
def crcMismatchCond (rest : List Nat) (len : Nat) : Prop :=
  ∃ c, read_u32_le (rest.drop (len - 4)) = some c ∧ c ≠ crc32 (rest.take (len - 4))

/-- The claim's key-length condition: the body's key length field reads zero. -/
def keyLenZeroCond (body : List Nat) : Prop := read_u32_le (body.drop 9) = some 0

/-- The claim's length-sum condition: the declared key and value lengths do
not sum (with the 17 fixed header bytes) exactly to the body size. -/
def lenSumMismatchCond (body : List Nat) : Prop :=
  ∃ kl vl, read_u32_le (body.drop 9) = some kl ∧ read_u32_le (body.drop 13) = some vl ∧
    17 + kl + vl ≠ body.length

/-- The claim's op condition: the body's op byte exists and is neither 1 (Put)
nor 2 (Delete). -/
def opInvalidCond (body : List Nat) : Prop :=
  ∃ b, body.head? = some b ∧ b ≠ 1 ∧ b ≠ 2

/-- The five corruption conditions exactly as the claim enumerates them: the
length field is zero or exceeds max_record_len; or — with the full record
present — the trailing CRC32 mismatches, the key length field is zero, the
declared key/value lengths do not sum to the body size, or the op byte is
invalid. -/
def claimCorruptCond (buf : List Nat) (offset max : Nat) : Prop :=
  ∃ len, read_u32_le (buf.drop offset) = some len ∧
    (len = 0 ∨ max < len ∨
      (4 + len ≤ buf.length - offset ∧
        (crcMismatchCond ((buf.drop (offset + 4)).take len) len ∨
         keyLenZeroCond (((buf.drop (offset + 4)).take len).take (len - 4)) ∨
         lenSumMismatchCond (((buf.drop (offset + 4)).take len).take (len - 4)) ∨
         opInvalidCond (((buf.drop (offset + 4)).take len).take (len - 4)))))

/-- The claim's conditions amended with the two length checks the code also
enforces: a length field too small to hold the trailing CRC (len < 4), and a
checksummed body shorter than the 17 fixed header bytes. -/
def amendedCorruptCond (buf : List Nat) (offset max : Nat) : Prop :=
  ∃ len, read_u32_le (buf.drop offset) = some len ∧
    (len = 0 ∨ max < len ∨
      (4 + len ≤ buf.length - offset ∧
        (len < 4 ∨
         crcMismatchCond ((buf.drop (offset + 4)).take len) len ∨
         (((buf.drop (offset + 4)).take len).take (len - 4)).length < 17 ∨
         keyLenZeroCond (((buf.drop (offset + 4)).take len).take (len - 4)) ∨
         lenSumMismatchCond (((buf.drop (offset + 4)).take len).take (len - 4)) ∨
         opInvalidCond (((buf.drop (offset + 4)).take len).take (len - 4)))))

/-- The message of a Corruption error names the specific violated invariant:
this predicate pairs each message decode_record can emit with the condition
that message names, evaluated on the record at the given offset. "invalid len"
names the length-field bounds; the remaining messages presuppose the full
record is present and name, in turn: a length field too small for the trailing
CRC, a trailing CRC32 that does not match the body's CRC32, a body shorter
than the 17-byte fixed header, a zero key length field, declared key/value
lengths that do not sum to the body size, and an op byte that is neither 1 nor
2. -/
def namedCorruptCond (buf : List Nat) (offset max : Nat) (s : String) : Prop :=
  ∃ len, read_u32_le (buf.drop offset) = some len ∧
    ((s = "invalid len" ∧ (len = 0 ∨ max < len)) ∨
     (4 + len ≤ buf.length - offset ∧
       ((s = "record too short" ∧ len < 4) ∨
        (s = "crc mismatch" ∧ crcMismatchCond ((buf.drop (offset + 4)).take len) len) ∨
        (s = "body too short" ∧
          (((buf.drop (offset + 4)).take len).take (len - 4)).length < 17) ∨
        (s = "key_len is 0" ∧
          keyLenZeroCond (((buf.drop (offset + 4)).take len).take (len - 4))) ∨
        (s = "length mismatch - body len doesnt match what is described in payload metadata" ∧
          lenSumMismatchCond (((buf.drop (offset + 4)).take len).take (len - 4))) ∨
        (s = "invalid op code found" ∧
          opInvalidCond (((buf.drop (offset + 4)).take len).take (len - 4))))))

end Lsmdb

namespace Lsmdb

/-! ## Little-endian round-trip lemmas -/

theorem u32le_length (n : Nat) : (u32le n).length = 4 := rfl

theorem u64le_length (n : Nat) : (u64le n).length = 8 := rfl

theorem read_u32_le_u32le (n : Nat) (rest : List Nat) (h : n < 4294967296) :
    read_u32_le (u32le n ++ rest) = some n := by
  show some (n % 256 + 256 * (n / 256 % 256) + 65536 * (n / 256 / 256 % 256) +
    16777216 * (n / 256 / 256 / 256 % 256)) = some n
  have h1 := Nat.mod_add_div n 256
  have h2 := Nat.mod_add_div (n / 256) 256
  have h3 := Nat.mod_add_div (n / 256 / 256) 256
  have h4 := Nat.mod_add_div (n / 256 / 256 / 256) 256
  have h5 : n / 256 / 256 / 256 / 256 = 0 := by
    have : n / 256 / 256 / 256 / 256 = n / 4294967296 := by
      rw [Nat.div_div_eq_div_mul, Nat.div_div_eq_div_mul, Nat.div_div_eq_div_mul]
    rw [this]
    exact Nat.div_eq_of_lt h
  congr 1
  omega

theorem read_u64_le_u64le (n : Nat) (rest : List Nat) (h : n < 18446744073709551616) :
    read_u64_le (u64le n ++ rest) = some n := by
  show some (n % 256 + 256 * (n / 256 % 256) + 65536 * (n / 256 / 256 % 256) +
    16777216 * (n / 256 / 256 / 256 % 256) + 4294967296 * (n / 256 / 256 / 256 / 256 % 256) +
    1099511627776 * (n / 256 / 256 / 256 / 256 / 256 % 256) +
    281474976710656 * (n / 256 / 256 / 256 / 256 / 256 / 256 % 256) +
    72057594037927936 * (n / 256 / 256 / 256 / 256 / 256 / 256 / 256 % 256)) = some n
  have h1 := Nat.mod_add_div n 256
  have h2 := Nat.mod_add_div (n / 256) 256
  have h3 := Nat.mod_add_div (n / 256 / 256) 256
  have h4 := Nat.mod_add_div (n / 256 / 256 / 256) 256
  have h5 := Nat.mod_add_div (n / 256 / 256 / 256 / 256) 256
  have h6 := Nat.mod_add_div (n / 256 / 256 / 256 / 256 / 256) 256
  have h7 := Nat.mod_add_div (n / 256 / 256 / 256 / 256 / 256 / 256) 256
  have h8 := Nat.mod_add_div (n / 256 / 256 / 256 / 256 / 256 / 256 / 256) 256
  have h9 : n / 256 / 256 / 256 / 256 / 256 / 256 / 256 / 256 = 0 := by
    have : n / 256 / 256 / 256 / 256 / 256 / 256 / 256 / 256 = n / 18446744073709551616 := by
      rw [Nat.div_div_eq_div_mul, Nat.div_div_eq_div_mul, Nat.div_div_eq_div_mul,
          Nat.div_div_eq_div_mul, Nat.div_div_eq_div_mul, Nat.div_div_eq_div_mul,
          Nat.div_div_eq_div_mul]
    rw [this]
    exact Nat.div_eq_of_lt h
  congr 1
  omega

theorem read_u32_le_eq_none_iff (l : List Nat) : read_u32_le l = none ↔ l.length < 4 := by
  match l with
  | [] => simp [read_u32_le]
  | [a] => simp [read_u32_le]
  | [a, b] => simp [read_u32_le]
  | [a, b, c] => simp [read_u32_le]
  | a :: b :: c :: d :: rest => simp [read_u32_le]

theorem read_u32_le_isSome (l : List Nat) (h : 4 ≤ l.length) :
    ∃ n, read_u32_le l = some n := by
  match hr : read_u32_le l with
  | some n => exact ⟨n, rfl⟩
  | none => exact absurd ((read_u32_le_eq_none_iff l).mp hr) (by omega)

theorem read_u64_le_eq_none_iff (l : List Nat) : read_u64_le l = none ↔ l.length < 8 := by
  match l with
  | [] => simp [read_u64_le]
  | [a] => simp [read_u64_le]
  | [a, b] => simp [read_u64_le]
  | [a, b, c] => simp [read_u64_le]
  | [a, b, c, d] => simp [read_u64_le]
  | [a, b, c, d, e] => simp [read_u64_le]
  | [a, b, c, d, e, f] => simp [read_u64_le]
  | [a, b, c, d, e, f, g] => simp [read_u64_le]
  | a :: b :: c :: d :: e :: f :: g :: h :: rest => simp [read_u64_le]

/-! ## CRC-32 stays within u32 range -/

theorem crc32_step_lt (c : Nat) (h : c < 4294967296) : crc32_step c < 4294967296 := by
  unfold crc32_step
  split
  · have h1 : c / 2 < 2 ^ 32 := by omega
    have h2 : (0xEDB88320 : Nat) < 2 ^ 32 := by norm_num
    have h3 := Nat.xor_lt_two_pow h1 h2
    norm_num at h3
    exact h3
  · omega

theorem crc32_rounds_lt (n c : Nat) (h : c < 4294967296) : crc32_rounds n c < 4294967296 := by
  induction n generalizing c with
  | zero => exact h
  | succ k ih => exact ih _ (crc32_step_lt c h)

theorem crc32_byte_lt (c b : Nat) (h : c < 4294967296) : crc32_byte c b < 4294967296 := by
  unfold crc32_byte
  apply crc32_rounds_lt
  have h1 : c < 2 ^ 32 := by norm_num; omega
  have hb : b % 256 < 2 ^ 32 := by
    have := Nat.mod_lt b (y := 256) (by norm_num)
    norm_num
    omega
  have h3 := Nat.xor_lt_two_pow h1 hb
  norm_num at h3
  exact h3

theorem crc32_aux_lt (l : List Nat) (c : Nat) (h : c < 4294967296) :
    crc32_aux l c < 4294967296 := by
  induction l generalizing c with
  | nil => exact h
  | cons b rest ih => exact ih _ (crc32_byte_lt c b h)

theorem crc32_lt (data : List Nat) : crc32 data < 4294967296 := by
  unfold crc32
  have h1 : crc32_aux data 0xFFFFFFFF < 2 ^ 32 := by
    have := crc32_aux_lt data 0xFFFFFFFF (by norm_num)
    norm_num
    omega
  have h2 : (0xFFFFFFFF : Nat) < 2 ^ 32 := by norm_num
  have h3 := Nat.xor_lt_two_pow h1 h2
  norm_num at h3
  exact h3

end Lsmdb

namespace Lsmdb

/-! ## Structure of an encoded record -/


theorem recBody_length (r : WALRecord) :
    (recBody r).length = 17 + r.key.length + r.val.length := by
  simp [recBody, u64le_length, u32le_length]
  omega

theorem encode_record_def (r : WALRecord) :
    encode_record r = u32le ((recBody r).length + 4) ++ recBody r ++ u32le (crc32 (recBody r)) := rfl

theorem encode_record_length (r : WALRecord) :
    (encode_record r).length = 25 + r.key.length + r.val.length := by
  rw [encode_record_def]
  simp [recBody_length, u32le_length]
  omega

theorem Op.tryFrom_toByte (op : Op) : Op.tryFrom op.toByte = .ok op := by
  cases op <;> rfl

theorem read_u32_le_u32le_nil (n : Nat) (h : n < 4294967296) :
    read_u32_le (u32le n) = some n := by
  have := read_u32_le_u32le n [] h
  simpa using this

/-- Core codec law: a validly encoded record sitting at offset `|pre|` of a
larger buffer decodes back to itself, with the next offset just past it. -/
theorem decode_encode_ctx (pre post : List Nat) (r : WALRecord) (max : Nat)
    (hk : r.key ≠ []) (hkl : r.key.length < 4294967296) (hvl : r.val.length < 4294967296)
    (hs : r.seq_no < 18446744073709551616) (hmax : (encode_record r).length ≤ max)
    (hm32 : max < 4294967296) :
    decode_record (pre ++ (encode_record r ++ post)) pre.length max =
      .ok (r, pre.length + (encode_record r).length) := by
  have hbl : (recBody r).length = 17 + r.key.length + r.val.length := recBody_length r
  have henc : (encode_record r).length = 25 + r.key.length + r.val.length :=
    encode_record_length r
  have hlen32 : (recBody r).length + 4 < 4294967296 := by omega
  have hbuflen : (pre ++ (encode_record r ++ post)).length =
      pre.length + ((25 + r.key.length + r.val.length) + post.length) := by
    simp [henc]
  have hc1 : ¬((pre ++ (encode_record r ++ post)).length - pre.length < 4) := by
    rw [hbuflen]; omega
  have hdrop1 : (pre ++ (encode_record r ++ post)).drop pre.length =
      u32le ((recBody r).length + 4) ++
        (recBody r ++ (u32le (crc32 (recBody r)) ++ post)) := by
    rw [List.drop_left, encode_record_def]
    simp [List.append_assoc]
  have hread1 : read_u32_le ((pre ++ (encode_record r ++ post)).drop pre.length) =
      some ((recBody r).length + 4) := by
    rw [hdrop1]
    exact read_u32_le_u32le _ _ hlen32
  have hc2 : ¬((recBody r).length + 4 = 0 ∨ max < (recBody r).length + 4) := by
    push_neg
    constructor
    · omega
    · omega
  have hc3 : ¬((pre ++ (encode_record r ++ post)).length - pre.length <
      4 + ((recBody r).length + 4)) := by
    rw [hbuflen]; omega
  have hdrop2 : (pre ++ (encode_record r ++ post)).drop (pre.length + 4) =
      recBody r ++ (u32le (crc32 (recBody r)) ++ post) := by
    rw [← List.drop_drop, hdrop1, List.drop_left' (u32le_length _)]
  have htake : (recBody r ++ (u32le (crc32 (recBody r)) ++ post)).take
      ((recBody r).length + 4) = recBody r ++ u32le (crc32 (recBody r)) := by
    rw [← List.append_assoc]
    exact List.take_left' (by simp [u32le_length])
  have hrestlen : (recBody r ++ u32le (crc32 (recBody r))).length = (recBody r).length + 4 := by
    simp [u32le_length]
  have hc4 : ¬((recBody r).length + 4 < 4) := by omega
  have hbody : (recBody r ++ u32le (crc32 (recBody r))).take ((recBody r).length + 4 - 4) =
      recBody r := by
    rw [Nat.add_sub_cancel]
    exact List.take_left' rfl
  have hcrcdrop : (recBody r ++ u32le (crc32 (recBody r))).drop ((recBody r).length + 4 - 4) =
      u32le (crc32 (recBody r)) := by
    rw [Nat.add_sub_cancel]
    exact List.drop_left _ _
  have hcrcread : read_u32_le ((recBody r ++ u32le (crc32 (recBody r))).drop
      ((recBody r).length + 4 - 4)) = some (crc32 (recBody r)) := by
    rw [hcrcdrop]
    exact read_u32_le_u32le_nil _ (crc32_lt _)
  have hc5 : ¬(crc32 (recBody r) ≠ crc32 (recBody r)) := by simp
  have hc6 : ¬((recBody r).length < 1 + 8 + 4 + 4) := by omega
  have hop : (recBody r).getD 0 0 = r.op.toByte := rfl
  have hd1 : (recBody r).drop 1 =
      u64le r.seq_no ++ u32le r.key.length ++ u32le r.val.length ++ r.key ++ r.val := rfl
  have hseqread : read_u64_le ((recBody r).drop 1) = some r.seq_no := by
    rw [hd1]
    simp only [List.append_assoc]
    exact read_u64_le_u64le _ _ hs
  have hd9 : (recBody r).drop (1 + 8) =
      u32le r.key.length ++ (u32le r.val.length ++ (r.key ++ r.val)) := by
    rw [← List.drop_drop, hd1]
    simp only [List.append_assoc]
    exact List.drop_left' (u64le_length _)
  have hklread : read_u32_le ((recBody r).drop (1 + 8)) = some r.key.length := by
    rw [hd9]
    exact read_u32_le_u32le _ _ hkl
  have hd13 : (recBody r).drop (1 + 8 + 4) = u32le r.val.length ++ (r.key ++ r.val) := by
    rw [← List.drop_drop, hd9]
    exact List.drop_left' (u32le_length _)
  have hvlread : read_u32_le ((recBody r).drop (1 + 8 + 4)) = some r.val.length := by
    rw [hd13]
    exact read_u32_le_u32le _ _ hvl
  have hd17 : (recBody r).drop (1 + 8 + 4 + 4) = r.key ++ r.val := by
    rw [← List.drop_drop, hd13]
    exact List.drop_left' (u32le_length _)
  have hc7 : ¬(r.key.length = 0) := by
    intro h
    exact hk (List.length_eq_zero.mp h)
  have hc8 : ¬(1 + 8 + 4 + 4 + r.key.length + r.val.length ≠ (recBody r).length) := by
    rw [hbl]; omega
  have hkey : ((recBody r).drop (1 + 8 + 4 + 4)).take r.key.length = r.key := by
    rw [hd17]
    exact List.take_left' rfl
  have hval : (((recBody r).drop (1 + 8 + 4 + 4)).drop r.key.length).take r.val.length = r.val := by
    rw [hd17, List.drop_left r.key r.val]
    exact List.take_length r.val
  unfold decode_record
  simp only [hread1, hc1, if_false, hc2, if_false, hc3, if_false, hdrop2, htake, hrestlen,
    hc4, if_false, hbody, hcrcread, hc5, ite_not, hc6, if_false, hop, hseqread, hklread,
    hvlread, hc7, if_false, hc8, ite_not, hkey, hval, Op.tryFrom_toByte]
  rw [show 4 + ((recBody r).length + 4) = (encode_record r).length by omega]


end Lsmdb

namespace Lsmdb

/-- Decoding at the start of a strict prefix of an encoded record (a truncated
tail) yields CleanEOF: either fewer than four bytes remain, or fewer than the
declared length remain after the length prefix. -/
theorem decode_truncated_cleanEOF (pre : List Nat) (r : WALRecord) (t max : Nat)
    (hmax : (encode_record r).length ≤ max) (hm32 : max < 4294967296)
    (ht : t < (encode_record r).length) :
    decode_record (pre ++ (encode_record r).take t) pre.length max = .error .CleanEOF := by
  have hbl : (recBody r).length = 17 + r.key.length + r.val.length := recBody_length r
  have henc : (encode_record r).length = 25 + r.key.length + r.val.length :=
    encode_record_length r
  have hlen32 : (recBody r).length + 4 < 4294967296 := by omega
  have htlen : ((encode_record r).take t).length = t := by
    rw [List.length_take]
    omega
  have hrem : (pre ++ (encode_record r).take t).length - pre.length = t := by
    rw [List.length_append, htlen]
    omega
  by_cases h4 : t < 4
  · unfold decode_record
    rw [if_pos (by rw [hrem]; exact h4)]
  · have hdropt : (pre ++ (encode_record r).take t).drop pre.length =
        u32le ((recBody r).length + 4) ++
          ((recBody r ++ u32le (crc32 (recBody r))).take (t - 4)) := by
      rw [List.drop_left, encode_record_def, List.append_assoc,
        List.take_append_eq_append_take, List.take_of_length_le (by rw [u32le_length]; omega),
        u32le_length]
    have hread : read_u32_le ((pre ++ (encode_record r).take t).drop pre.length) =
        some ((recBody r).length + 4) := by
      rw [hdropt]
      exact read_u32_le_u32le _ _ hlen32
    have hc2 : ¬((recBody r).length + 4 = 0 ∨ max < (recBody r).length + 4) := by
      push_neg
      omega
    unfold decode_record
    rw [if_neg (by rw [hrem]; omega)]
    simp only [hread, hc2, if_false]
    rw [if_pos (by rw [hrem]; omega)]


theorem joinEnc_nil : joinEnc [] = [] := rfl

theorem joinEnc_cons (r : WALRecord) (recs : List WALRecord) :
    joinEnc (r :: recs) = encode_record r ++ joinEnc recs := rfl

theorem joinEnc_append (a b : List WALRecord) : joinEnc (a ++ b) = joinEnc a ++ joinEnc b := by
  simp [joinEnc]

/-- C2 (amended round-trip law): for every record with a non-empty key whose
key/value lengths fit the u32 fields, whose sequence number fits u64, and whose
encoding is within max_record_len (itself a u32 value), decoding the encoding
at offset 0 returns exactly the record and its encoded length. -/
theorem decode_encode_roundtrip (r : WALRecord) (max : Nat)
    (hk : r.key ≠ []) (hkl : r.key.length < 4294967296) (hvl : r.val.length < 4294967296)
    (hs : r.seq_no < 18446744073709551616) (hmax : (encode_record r).length ≤ max)
    (hm32 : max < 4294967296) :
    decode_record (encode_record r) 0 max = .ok (r, (encode_record r).length) := by
  have h := decode_encode_ctx [] [] r max hk hkl hvl hs hmax hm32
  simpa using h

/-- C2 witness: the round-trip law applied to a concrete record. -/
theorem decode_encode_roundtrip_witness :
    decode_record (encode_record ⟨Op.Put, 7, [107], [118]⟩) 0 1024000 =
      .ok (⟨Op.Put, 7, [107], [118]⟩, (encode_record ⟨Op.Put, 7, [107], [118]⟩).length) :=
  decode_encode_roundtrip ⟨Op.Put, 7, [107], [118]⟩ 1024000 (by decide) (by decide)
    (by decide) (by decide) (by decide) (by decide)

set_option maxRecDepth 4096 in
/-- C2 counterexample: a record whose key and value lengths fit the u32 fields
and whose encoding is within max_record_len, but whose key is empty, does not
round-trip: decode_record rejects it as Corruption "key_len is 0". -/
theorem decode_encode_empty_key_counterexample :
    decode_record (encode_record ⟨Op.Put, 0, [], []⟩) 0 1024000 =
        .error (.Corruption "key_len is 0") ∧
      (WALRecord.key ⟨Op.Put, 0, [], []⟩).length < 4294967296 ∧
      (WALRecord.val ⟨Op.Put, 0, [], []⟩).length < 4294967296 ∧
      (encode_record ⟨Op.Put, 0, [], []⟩).length ≤ 1024000 := by
  refine ⟨rfl, by decide, by decide, by decide⟩

/-- C6: truncating a concatenation of validly encoded records at any byte
boundary strictly before the final record's end leaves every earlier complete
record decodable at its offset, and decoding at the offset just past the last
complete record yields CleanEOF, never an error. -/
theorem truncation_tolerance (recs : List WALRecord) (rfin : WALRecord) (t max : Nat)
    (hvalid : ∀ r ∈ recs, ValidRecord r max) (hfin : ValidRecord rfin max)
    (hm32 : max < 4294967296) (ht : t < (encode_record rfin).length) :
    (∀ A rmid B, recs = A ++ rmid :: B →
      decode_record (joinEnc recs ++ (encode_record rfin).take t) (joinEnc A).length max =
        .ok (rmid, (joinEnc A).length + (encode_record rmid).length)) ∧
    decode_record (joinEnc recs ++ (encode_record rfin).take t) (joinEnc recs).length max =
      .error .CleanEOF := by
  constructor
  · intro A rmid B hsplit
    subst hsplit
    have hmem : rmid ∈ A ++ rmid :: B := by simp
    obtain ⟨hk, hkl, hvl, hs, hmax⟩ := hvalid rmid hmem
    have hbuf : joinEnc (A ++ rmid :: B) ++ (encode_record rfin).take t =
        joinEnc A ++ (encode_record rmid ++ (joinEnc B ++ (encode_record rfin).take t)) := by
      rw [joinEnc_append, joinEnc_cons]
      simp [List.append_assoc]
    rw [hbuf]
    exact decode_encode_ctx (joinEnc A) (joinEnc B ++ (encode_record rfin).take t)
      rmid max hk hkl hvl hs hmax hm32
  · exact decode_truncated_cleanEOF (joinEnc recs) rfin t max hfin.2.2.2.2 hm32 ht

/-- C6 witness: a concrete two-record log truncated five bytes into its second
record decodes its first record intact and reports CleanEOF at the cut. -/
theorem truncation_tolerance_witness :
    decode_record (joinEnc [⟨Op.Put, 0, [107], [118]⟩] ++
        (encode_record ⟨Op.Delete, 1, [107], []⟩).take 5)
        (joinEnc ([] : List WALRecord)).length 1024000 =
      .ok (⟨Op.Put, 0, [107], [118]⟩,
        (joinEnc ([] : List WALRecord)).length +
          (encode_record ⟨Op.Put, 0, [107], [118]⟩).length) ∧
    decode_record (joinEnc [⟨Op.Put, 0, [107], [118]⟩] ++
        (encode_record ⟨Op.Delete, 1, [107], []⟩).take 5)
        (joinEnc [⟨Op.Put, 0, [107], [118]⟩]).length 1024000 =
      .error .CleanEOF := by
  have h := truncation_tolerance [⟨Op.Put, 0, [107], [118]⟩] ⟨Op.Delete, 1, [107], []⟩
    5 1024000 (by decide) (by decide) (by decide) (by decide)
  exact ⟨h.1 [] ⟨Op.Put, 0, [107], [118]⟩ [] rfl, h.2⟩

end Lsmdb

namespace Lsmdb

/-- A successful decode advances the offset by at least five bytes and never
past the end of the buffer. -/
theorem decode_ok_bounds (buf : List Nat) (offset max : Nat) (rec : WALRecord) (next : Nat)
    (h : decode_record buf offset max = .ok (rec, next)) :
    offset + 5 ≤ next ∧ next ≤ buf.length := by
  simp only [decode_record] at h
  repeat (split at h <;> try exact Except.noConfusion h)
  simp only [Except.ok.injEq, Prod.mk.injEq] at h
  omega


theorem applyRecord_eq (mem : MemTable) (rec : WALRecord) (hk : rec.key ≠ []) :
    applyRecord mem rec = .ok (applyPure mem rec) := by
  have hlen : ¬(rec.key.length = 0) := fun h => hk (List.length_eq_zero.mp h)
  cases hop : rec.op <;>
    cases hm : mem rec.key <;>
      simp [applyRecord, applyPure, hop, hm, memtable_put, hlen]

/-- replayLoop computes the same value under any two sufficient fuels. -/
theorem replayLoop_fuel_eq (buf : List Nat) (max : Nat) :
    ∀ fuel₁ fuel₂ offset mem, buf.length - offset < fuel₁ → buf.length - offset < fuel₂ →
      replayLoop fuel₁ buf offset mem max = replayLoop fuel₂ buf offset mem max := by
  intro fuel₁
  induction fuel₁ with
  | zero => intro fuel₂ offset mem h1 h2; omega
  | succ f ih =>
    intro fuel₂ offset mem h1 h2
    cases fuel₂ with
    | zero => omega
    | succ f2 =>
      show replayLoop (f + 1) buf offset mem max = replayLoop (f2 + 1) buf offset mem max
      simp only [replayLoop]
      cases hd : decode_record buf offset max with
      | error e => cases e <;> simp
      | ok p =>
        obtain ⟨rec, next⟩ := p
        obtain ⟨hlow, hhigh⟩ := decode_ok_bounds buf offset max rec next hd
        cases ha : applyRecord mem rec with
        | error e => simp [ha]
        | ok mem2 =>
          simp only [ha]
          exact ih f2 next mem2 (by omega) (by omega)

/-- Fully replaying a buffer made of validly encoded records followed by a
tail on which decode reports an error: a CleanEOF tail stops successfully
having applied exactly the records in order; a Corruption tail aborts with
that error. -/
theorem replayLoop_join (recs : List WALRecord) :
    ∀ (pre tail : List Nat) (mem : MemTable) (max : Nat) (e : WalDecodeError) (fuel : Nat),
      (∀ r ∈ recs, ValidRecord r max) → max < 4294967296 →
      decode_record (pre ++ (joinEnc recs ++ tail)) (pre.length + (joinEnc recs).length) max =
        .error e →
      (pre ++ (joinEnc recs ++ tail)).length - pre.length < fuel →
      replayLoop fuel (pre ++ (joinEnc recs ++ tail)) pre.length mem max =
        match e with
        | .CleanEOF => .ok (recs.foldl applyPure mem)
        | .Corruption s => .error (.Corruption s) := by
  induction recs with
  | nil =>
    intro pre tail mem max e fuel hvalid hm32 hend hfuel
    cases fuel with
    | zero => omega
    | succ f =>
      simp only [joinEnc_nil, List.length_nil, Nat.add_zero, List.nil_append] at hend ⊢
      simp only [replayLoop, hend]
      cases e <;> simp
  | cons r rest ih =>
    intro pre tail mem max e fuel hvalid hm32 hend hfuel
    obtain ⟨hk, hkl, hvl, hs, hmax⟩ := hvalid r (by simp)
    have hrest : ∀ r2 ∈ rest, ValidRecord r2 max := fun r2 h2 => hvalid r2 (by simp [h2])
    have hbuf : pre ++ (joinEnc (r :: rest) ++ tail) =
        pre ++ (encode_record r ++ (joinEnc rest ++ tail)) := by
      rw [joinEnc_cons, List.append_assoc]
    have henc : (encode_record r).length = 25 + r.key.length + r.val.length :=
      encode_record_length r
    cases fuel with
    | zero =>
      rw [hbuf] at hfuel
      simp [List.length_append] at hfuel
    | succ f =>
      rw [hbuf] at hfuel hend ⊢
      have hdec : decode_record (pre ++ (encode_record r ++ (joinEnc rest ++ tail)))
          pre.length max = .ok (r, pre.length + (encode_record r).length) :=
        decode_encode_ctx pre (joinEnc rest ++ tail) r max hk hkl hvl hs hmax hm32
      simp only [replayLoop, hdec, applyRecord_eq mem r hk]
      have hassoc : pre ++ (encode_record r ++ (joinEnc rest ++ tail)) =
          (pre ++ encode_record r) ++ (joinEnc rest ++ tail) := by
        rw [List.append_assoc]
      have hlen2 : (pre ++ encode_record r).length = pre.length + (encode_record r).length := by
        simp
      have hend2 : decode_record ((pre ++ encode_record r) ++ (joinEnc rest ++ tail))
          ((pre ++ encode_record r).length + (joinEnc rest).length) max = .error e := by
        rw [← hassoc, hlen2]
        have : pre.length + (encode_record r).length + (joinEnc rest).length =
            pre.length + (joinEnc (r :: rest)).length := by
          rw [joinEnc_cons]
          simp
          omega
        rw [this]
        exact hend
      have hfuel2 : ((pre ++ encode_record r) ++ (joinEnc rest ++ tail)).length -
          (pre ++ encode_record r).length < f := by
        rw [← hassoc, hlen2]
        simp only [List.length_append] at hfuel ⊢
        omega
      have := ih (pre ++ encode_record r) tail (applyPure mem r) max e f hrest hm32 hend2 hfuel2
      rw [hassoc, ← hlen2]
      rw [this]
      cases e <;> simp

end Lsmdb

namespace Lsmdb

/-- C3: replay decodes records from offset 0 at increasing offsets, applying
every decoded Put as a MemTable put and every Delete as a tombstone-insert,
each keyed by the record's own sequence number (the foldl over applyPure);
a Clean-End-Of-Stream outcome at the end of the complete records stops replay
successfully there, and a Corruption outcome aborts replay with the error,
which DB::new propagates instead of coming up with a partial MemTable. -/
theorem replay_into_spec (recs : List WALRecord) (tail : List Nat) (max : Nat)
    (hvalid : ∀ r ∈ recs, ValidRecord r max) (hm32 : max < 4294967296) :
    (decode_record (joinEnc recs ++ tail) (joinEnc recs).length max = .error .CleanEOF →
      replay_into (joinEnc recs ++ tail) emptyMT max = .ok (recs.foldl applyPure emptyMT)) ∧
    (∀ s, decode_record (joinEnc recs ++ tail) (joinEnc recs).length max =
        .error (.Corruption s) →
      replay_into (joinEnc recs ++ tail) emptyMT max = .error (.Corruption s) ∧
      DB.new (joinEnc recs ++ tail) max false = .error (.Corruption s)) := by
  constructor
  · intro h
    have hj := replayLoop_join recs [] tail emptyMT max .CleanEOF
      ((joinEnc recs ++ tail).length + 1) hvalid hm32 (by simpa using h)
      (by simp)
    simpa [replay_into] using hj
  · intro s h
    have hj := replayLoop_join recs [] tail emptyMT max (.Corruption s)
      ((joinEnc recs ++ tail).length + 1) hvalid hm32 (by simpa using h)
      (by simp)
    have hre : replay_into (joinEnc recs ++ tail) emptyMT max = .error (.Corruption s) := by
      simpa [replay_into] using hj
    refine ⟨hre, ?_⟩
    simp [DB.new, hre]

set_option maxRecDepth 4096 in
/-- C3 witness: replaying a one-record log reproduces that record's put. -/
theorem replay_into_spec_witness :
    replay_into (joinEnc [⟨Op.Put, 5, [107], [118]⟩] ++ []) emptyMT 1024000 =
      .ok ([(⟨Op.Put, 5, [107], [118]⟩ : WALRecord)].foldl applyPure emptyMT) :=
  (replay_into_spec [⟨Op.Put, 5, [107], [118]⟩] [] 1024000 (by decide) (by decide)).1 rfl

/-- C1: when the WAL append inside put fails, the error is propagated to the
caller and the operation is a complete no-op: the MemTable is not modified and
next_seq_no is not incremented (indeed the whole engine state is unchanged). -/
theorem put_append_error_is_noop (db : DB) (key val : List Nat) (e : DBError) :
    (DB.put db key val (some e)).1 = .error e ∧
    (DB.put db key val (some e)).2.mem_table = db.mem_table ∧
    (DB.put db key val (some e)).2.next_seq_no = db.next_seq_no ∧
    (DB.put db key val (some e)).2 = db :=
  ⟨rfl, rfl, rfl, rfl⟩

/-- C8: put and delete with an empty key both fail with a Codec error and
leave next_seq_no unchanged and the MemTable untouched. -/
theorem empty_key_rejected (db : DB) (v : List Nat) :
    (DB.put db [] v none).1 = .error (.Codec "empty key") ∧
    (DB.put db [] v none).2.mem_table = db.mem_table ∧
    (DB.put db [] v none).2.next_seq_no = db.next_seq_no ∧
    (DB.delete db []).1 = .error (.Codec "key cannot be empty") ∧
    (DB.delete db []).2.mem_table = db.mem_table ∧
    (DB.delete db []).2.next_seq_no = db.next_seq_no :=
  ⟨rfl, rfl, rfl, rfl, rfl, rfl⟩

/-- C9: delete with a non-empty key returns success, increments next_seq_no by
exactly one, inserts Tombstone(next_seq_no) when no entry exists for the key,
and leaves any existing entry (live or tombstone) untouched. -/
theorem delete_insert_if_absent (db : DB) (key : List Nat) (hk : key ≠ []) :
    (DB.delete db key).1 = .ok () ∧
    (DB.delete db key).2.next_seq_no = db.next_seq_no + 1 ∧
    (db.mem_table key = none →
      (DB.delete db key).2.mem_table = mtInsert db.mem_table key (.Tombstone db.next_seq_no)) ∧
    (∀ e, db.mem_table key = some e → (DB.delete db key).2.mem_table = db.mem_table) := by
  have hlen : ¬(key.length = 0) := fun h => hk (List.length_eq_zero.mp h)
  refine ⟨?_, ?_, ?_, ?_⟩
  · simp [DB.delete, hlen]
  · simp [DB.delete, hlen]
  · intro h
    simp [DB.delete, hlen, h]
  · intro e he
    simp [DB.delete, hlen, he]

/-- C9 witness: deleting an absent key on a fresh engine tombstones it with
sequence number 0 and moves the counter to 1. -/
theorem delete_insert_if_absent_witness :
    (DB.delete ⟨emptyMT, [], 0⟩ [107]).1 = .ok () ∧
    (DB.delete ⟨emptyMT, [], 0⟩ [107]).2.next_seq_no = 0 + 1 ∧
    (emptyMT [107] = none →
      (DB.delete ⟨emptyMT, [], 0⟩ [107]).2.mem_table = mtInsert emptyMT [107] (.Tombstone 0)) ∧
    (∀ e, emptyMT [107] = some e → (DB.delete ⟨emptyMT, [], 0⟩ [107]).2.mem_table = emptyMT) :=
  delete_insert_if_absent ⟨emptyMT, [], 0⟩ [107] (by decide)

end Lsmdb

namespace Lsmdb

theorem mtInsert_self (m : MemTable) (k : List Nat) (e : Entry) : mtInsert m k e k = some e := by
  simp [mtInsert]

/-- memtable::put on a non-empty key always succeeds, with the conflict
resolution of the source: replace only when the existing sequence number is
strictly smaller. -/
theorem memtable_put_result (mem : MemTable) (k v : List Nat) (s : Nat)
    (hlen : ¬(k.length = 0)) :
    memtable_put mem k v s = .ok (match mem k with
      | some e => if e.seq_no < s then mtInsert mem k (.Value s v) else mem
      | none => mtInsert mem k (.Value s v)) := by
  cases hm : mem k <;> simp [memtable_put, hlen, hm]

/-- C4 counterexample: on a MemTable already holding an entry with sequence
number 5 for the key, two puts with sequence numbers 0 < 1 (applied a-then-b)
are both silently discarded; the final entry is the old one, not b's value. -/
theorem memtable_last_writer_counterexample :
    memtable_put (mtInsert emptyMT [107] (.Value 5 [9])) [107] [100] 0 =
      .ok (mtInsert emptyMT [107] (.Value 5 [9])) ∧
    memtable_put (mtInsert emptyMT [107] (.Value 5 [9])) [107] [101] 1 =
      .ok (mtInsert emptyMT [107] (.Value 5 [9])) ∧
    (mtInsert emptyMT [107] (.Value 5 [9])) [107] = some (.Value 5 [9]) ∧
    some (Entry.Value 5 [9]) ≠ some (.Value 1 [101]) :=
  ⟨rfl, rfl, rfl, by decide⟩

/-- C4 (amended): for a key whose pre-existing entry (if any) has sequence
number below b, two puts with sequence numbers a < b applied in either order
leave exactly b's value; and a put whose sequence number is not above the
existing entry's is silently discarded while still returning success. -/
theorem memtable_last_writer (mem : MemTable) (k va vb : List Nat) (sa sb : Nat)
    (hk : k ≠ []) (hab : sa < sb) (hex : ∀ e, mem k = some e → e.seq_no < sb) :
    (∀ m1 m2, memtable_put mem k va sa = .ok m1 → memtable_put m1 k vb sb = .ok m2 →
      m2 k = some (.Value sb vb)) ∧
    (∀ m1 m2, memtable_put mem k vb sb = .ok m1 → memtable_put m1 k va sa = .ok m2 →
      m2 k = some (.Value sb vb)) ∧
    (∀ v s e, mem k = some e → ¬(e.seq_no < s) → memtable_put mem k v s = .ok mem) := by
  have hlen : ¬(k.length = 0) := fun h => hk (List.length_eq_zero.mp h)
  refine ⟨?_, ?_, ?_⟩
  · intro m1 m2 h1 h2
    rw [memtable_put_result mem k va sa hlen] at h1
    cases hm : mem k with
    | none =>
      simp only [hm, Except.ok.injEq] at h1
      subst h1
      rw [memtable_put_result _ k vb sb hlen] at h2
      simp only [mtInsert_self, Entry.seq_no, if_pos hab, Except.ok.injEq] at h2
      subst h2
      exact mtInsert_self _ _ _
    | some e =>
      have hesb : e.seq_no < sb := hex e hm
      simp only [hm, Except.ok.injEq] at h1
      subst h1
      have hm1k : (if e.seq_no < sa then mtInsert mem k (.Value sa va) else mem) k =
          some (if e.seq_no < sa then Entry.Value sa va else e) := by
        by_cases hea : e.seq_no < sa
        · simp [hea, mtInsert_self]
        · simp [hea, hm]
      have hlt : (if e.seq_no < sa then Entry.Value sa va else e).seq_no < sb := by
        by_cases hea : e.seq_no < sa
        · rw [if_pos hea]
          exact hab
        · rw [if_neg hea]
          exact hesb
      rw [memtable_put_result _ k vb sb hlen] at h2
      simp only [hm1k, if_pos hlt, Except.ok.injEq] at h2
      subst h2
      exact mtInsert_self _ _ _
  · intro m1 m2 h1 h2
    rw [memtable_put_result mem k vb sb hlen] at h1
    cases hm : mem k with
    | none =>
      simp only [hm, Except.ok.injEq] at h1
      subst h1
      rw [memtable_put_result _ k va sa hlen] at h2
      simp only [mtInsert_self, Entry.seq_no, if_neg (by omega : ¬(sb < sa)),
        Except.ok.injEq] at h2
      subst h2
      exact mtInsert_self _ _ _
    | some e =>
      have hesb : e.seq_no < sb := hex e hm
      simp only [hm, if_pos hesb, Except.ok.injEq] at h1
      subst h1
      rw [memtable_put_result _ k va sa hlen] at h2
      simp only [mtInsert_self, Entry.seq_no, if_neg (by omega : ¬(sb < sa)),
        Except.ok.injEq] at h2
      subst h2
      exact mtInsert_self _ _ _
  · intro v s e hm hns
    rw [memtable_put_result mem k v s hlen]
    simp only [hm, if_neg hns]

/-- C4 witness: the amended last-writer law on an initially empty MemTable with
sequence numbers 0 < 1. -/
theorem memtable_last_writer_witness :
    (∀ m1 m2, memtable_put emptyMT [107] [1] 0 = .ok m1 →
      memtable_put m1 [107] [2] 1 = .ok m2 → m2 [107] = some (.Value 1 [2])) ∧
    (∀ m1 m2, memtable_put emptyMT [107] [2] 1 = .ok m1 →
      memtable_put m1 [107] [1] 0 = .ok m2 → m2 [107] = some (.Value 1 [2])) ∧
    (∀ v s e, emptyMT [107] = some e → ¬(e.seq_no < s) →
      memtable_put emptyMT [107] v s = .ok emptyMT) :=
  memtable_last_writer emptyMT [107] [1] [2] 0 1 (by decide) (by decide)
    (by intro e h; simp [emptyMT] at h)

theorem DB.put_some_state (db : DB) (k v : List Nat) (e : DBError) :
    (DB.put db k v (some e)).2 = db := rfl

theorem DB.put_wal (db : DB) (k v : List Nat) :
    (DB.put db k v none).2.wal = db.wal ++ [⟨Op.Put, db.next_seq_no, k, v⟩] := by
  simp only [DB.put]
  cases h : memtable_put db.mem_table k v db.next_seq_no <;> simp [h]

theorem DB.delete_wal (db : DB) (k : List Nat) : (DB.delete db k).2.wal = db.wal := by
  simp only [DB.delete]
  split <;> rfl


/-- C7 counterexample: a put with an empty key constructs an empty-key
WALRecord and appends it to the WAL before the MemTable layer rejects the
call, so an empty-key record is both constructed and appended. -/
theorem empty_key_record_appended_counterexample :
    (DB.put ⟨emptyMT, [], 0⟩ [] [118] none).2.wal = [⟨Op.Put, 0, [], [118]⟩] ∧
    (⟨Op.Put, 0, [], [118]⟩ : WALRecord).key = [] ∧
    (DB.put ⟨emptyMT, [], 0⟩ [] [118] none).1 = .error (.Codec "empty key") :=
  ⟨rfl, rfl, rfl⟩

/-- C7 (amended): delete checks key emptiness before constructing any record
and never appends to the WAL; put constructs and appends its record with no
prior emptiness check. Hence along every call sequence in which each put's key
is non-empty, no record with an empty key is ever appended to the WAL. -/
theorem no_empty_key_records (calls : List Call) (db : DB)
    (hcalls : calls.all (fun c => !(callHasEmptyPutKey c)) = true)
    (hwal : ∀ r ∈ db.wal, r.key ≠ []) :
    ∀ r ∈ (DB.run db calls).wal, r.key ≠ [] := by
  induction calls generalizing db with
  | nil => exact hwal
  | cons c rest ih =>
    simp only [List.all_cons, Bool.and_eq_true] at hcalls
    have hstep : ∀ r ∈ (DB.step db c).wal, r.key ≠ [] := by
      cases c with
      | put k v e =>
        cases e with
        | some err =>
          show ∀ r ∈ (DB.put db k v (some err)).2.wal, r.key ≠ []
          rw [DB.put_some_state]
          exact hwal
        | none =>
          show ∀ r ∈ (DB.put db k v none).2.wal, r.key ≠ []
          rw [DB.put_wal]
          intro r hr
          rcases List.mem_append.mp hr with hr1 | hr2
          · exact hwal r hr1
          · have hk : ¬(k.isEmpty = true) := by
              simpa [callHasEmptyPutKey] using hcalls.1
            simp only [List.mem_singleton] at hr2
            subst hr2
            simpa [List.isEmpty_iff] using hk
      | delete k =>
        show ∀ r ∈ (DB.delete db k).2.wal, r.key ≠ []
        rw [DB.delete_wal]
        exact hwal
    show ∀ r ∈ (DB.run (DB.step db c) rest).wal, r.key ≠ []
    exact ih (DB.step db c) hcalls.2 hstep

/-- C7 witness: a put of a non-empty key followed by deletes (including an
empty-key delete, which never constructs a record) appends exactly one record,
whose key is non-empty. -/
theorem no_empty_key_records_witness :
    (DB.run ⟨emptyMT, [], 0⟩
      [.put [107] [118] none, .delete [], .delete [107]]).wal =
        [⟨Op.Put, 0, [107], [118]⟩] ∧
    (⟨Op.Put, 0, [107], [118]⟩ : WALRecord).key ≠ [] := by
  have hm : (⟨Op.Put, 0, [107], [118]⟩ : WALRecord) ∈ (DB.run ⟨emptyMT, [], 0⟩
      [.put [107] [118] none, .delete [], .delete [107]]).wal := by
    rw [show (DB.run ⟨emptyMT, [], 0⟩
      [.put [107] [118] none, .delete [], .delete [107]]).wal =
        [⟨Op.Put, 0, [107], [118]⟩] from rfl]
    exact List.mem_singleton.mpr rfl
  exact ⟨rfl, no_empty_key_records [.put [107] [118] none, .delete [], .delete [107]]
    ⟨emptyMT, [], 0⟩ (by decide) (by simp) ⟨Op.Put, 0, [107], [118]⟩ hm⟩

end Lsmdb

namespace Lsmdb

/-- C10: DB::new always initializes next_seq_no to 0, even when replay has
populated the MemTable; since every replayed entry's sequence number is >= 0,
a subsequent put to such a key (which is assigned sequence number 0) returns
success and consumes a sequence number while being silently discarded from the
in-memory view. -/
theorem new_resets_seq_no (walBytes : List Nat) (max : Nat) (db : DB)
    (h : DB.new walBytes max false = .ok db) :
    db.next_seq_no = 0 ∧
    (∀ k v e, k ≠ [] → db.mem_table k = some e →
      e.seq_no ≥ 0 ∧
      (DB.put db k v none).1 = .ok () ∧
      (DB.put db k v none).2.mem_table = db.mem_table ∧
      (DB.put db k v none).2.next_seq_no = 1) := by
  simp only [DB.new, Bool.false_eq_true, if_false] at h
  cases hr : replay_into walBytes emptyMT max with
  | error e => rw [hr] at h; exact Except.noConfusion h
  | ok mem =>
    rw [hr] at h
    simp only [Except.ok.injEq] at h
    subst h
    refine ⟨rfl, ?_⟩
    intro k v e hk hmem
    have hlen : ¬(k.length = 0) := fun hl => hk (List.length_eq_zero.mp hl)
    have hmem2 : mem k = some e := hmem
    have hput : memtable_put mem k v 0 = .ok mem := by
      rw [memtable_put_result mem k v 0 hlen]
      simp only [hmem2, Nat.not_lt_zero, if_false]
    refine ⟨Nat.zero_le _, ?_, ?_, ?_⟩ <;> simp [DB.put, hput]

set_option maxRecDepth 8192 in
/-- C10 witness: reopening on a one-record log whose record carries sequence
number 5 yields next_seq_no = 0, and a put to that key is silently discarded
while returning success and consuming sequence number 0. -/
theorem new_resets_seq_no_witness :
    (⟨mtInsert emptyMT [107] (Entry.Value 5 [118]), [], 0⟩ : DB).next_seq_no = 0 ∧
    (Entry.Value 5 [118]).seq_no ≥ 0 ∧
    (DB.put ⟨mtInsert emptyMT [107] (Entry.Value 5 [118]), [], 0⟩ [107] [9] none).1 = .ok () ∧
    (DB.put ⟨mtInsert emptyMT [107] (Entry.Value 5 [118]), [], 0⟩ [107] [9] none).2.mem_table =
      mtInsert emptyMT [107] (Entry.Value 5 [118]) ∧
    (DB.put ⟨mtInsert emptyMT [107] (Entry.Value 5 [118]), [], 0⟩ [107] [9] none).2.next_seq_no
      = 1 := by
  have h := new_resets_seq_no (encode_record ⟨Op.Put, 5, [107], [118]⟩) 1024000
    ⟨mtInsert emptyMT [107] (Entry.Value 5 [118]), [], 0⟩ rfl
  have h2 := h.2 [107] [9] (Entry.Value 5 [118]) (by decide) rfl
  exact ⟨h.1, h2.1, h2.2.1, h2.2.2.1, h2.2.2.2⟩

end Lsmdb

namespace Lsmdb







/-- C5 counterexample: on the seven-byte buffer [3,0,0,0,9,9,9], decode_record
reports Corruption "record too short" although none of the claim's five
conditions holds — the length field is 3 (neither zero nor above max 1000),
and the record is too short for a trailing CRC, declared key/value length
fields, or an op byte to exist at all. -/
theorem decode_corruption_counterexample :
    decode_record [3, 0, 0, 0, 9, 9, 9] 0 1000 = .error (.Corruption "record too short") ∧
    ¬ claimCorruptCond [3, 0, 0, 0, 9, 9, 9] 0 1000 := by
  constructor
  · rfl
  · rintro ⟨len, hlen, hdisj⟩
    have hread0 : read_u32_le ([3, 0, 0, 0, 9, 9, 9].drop 0) = some 3 := rfl
    rw [hread0] at hlen
    injection hlen with hlen3
    subst hlen3
    rcases hdisj with h | h | ⟨hp, hcond⟩
    · exact absurd h (by decide)
    · exact absurd h (by decide)
    · rcases hcond with ⟨c, hc, _⟩ | hk | ⟨kl, vl, hkl, _, _⟩ | ⟨b, hb, _⟩
      · rw [show read_u32_le ((([3, 0, 0, 0, 9, 9, 9].drop (0 + 4)).take 3).drop (3 - 4)) =
            none from rfl] at hc
        exact Option.noConfusion hc
      · unfold keyLenZeroCond at hk
        rw [show read_u32_le (((([3, 0, 0, 0, 9, 9, 9].drop (0 + 4)).take 3).take
            (3 - 4)).drop 9) = none from rfl] at hk
        exact Option.noConfusion hk
      · rw [show read_u32_le (((([3, 0, 0, 0, 9, 9, 9].drop (0 + 4)).take 3).take
            (3 - 4)).drop 9) = none from rfl] at hkl
        exact Option.noConfusion hkl
      · rw [show (((([3, 0, 0, 0, 9, 9, 9].drop (0 + 4)).take 3).take (3 - 4))).head? =
            none from rfl] at hb
        exact Option.noConfusion hb

end Lsmdb

namespace Lsmdb

theorem read_u64_le_isSome (l : List Nat) (h : 8 ≤ l.length) :
    ∃ n, read_u64_le l = some n := by
  match hr : read_u64_le l with
  | some n => exact ⟨n, rfl⟩
  | none => exact absurd ((read_u64_le_eq_none_iff l).mp hr) (by omega)

theorem head?_eq_getD (l : List Nat) (h : l ≠ []) : l.head? = some (l.getD 0 0) := by
  cases l with
  | nil => exact absurd rfl h
  | cons a rest => rfl

theorem Op.tryFrom_error_elim (v : Nat) (e : WalDecodeError) (h : Op.tryFrom v = .error e) :
    v ≠ 1 ∧ v ≠ 2 ∧ e = .Corruption "invalid op code found" := by
  unfold Op.tryFrom at h
  by_cases hv1 : v = 1
  · rw [if_pos hv1] at h
    exact Except.noConfusion h
  · rw [if_neg hv1] at h
    by_cases hv2 : v = 2
    · rw [if_pos hv2] at h
      exact Except.noConfusion h
    · rw [if_neg hv2] at h
      injection h with h2
      exact ⟨hv1, hv2, h2.symm⟩

theorem Op.tryFrom_ok_elim (v : Nat) (op2 : Op) (h : Op.tryFrom v = .ok op2) :
    v = 1 ∨ v = 2 := by
  unfold Op.tryFrom at h
  by_cases hv1 : v = 1
  · exact Or.inl hv1
  · rw [if_neg hv1] at h
    by_cases hv2 : v = 2
    · exact Or.inr hv2
    · rw [if_neg hv2] at h
      exact Except.noConfusion h

/-- Existence half of the corruption characterization: decode_record reports
some Corruption exactly when one of the amended conditions holds. -/
theorem decode_corruption_exists_iff (buf : List Nat) (offset max : Nat) :
    (∃ s, decode_record buf offset max = .error (.Corruption s)) ↔
      amendedCorruptCond buf offset max := by
  by_cases h1 : buf.length - offset < 4
  · have hnone : read_u32_le (buf.drop offset) = none :=
      (read_u32_le_eq_none_iff _).mpr (by rw [List.length_drop]; omega)
    constructor
    · rintro ⟨s, hs⟩
      unfold decode_record at hs
      rw [if_pos h1] at hs
      simp at hs
    · rintro ⟨len, hlen, _⟩
      rw [hnone] at hlen
      exact Option.noConfusion hlen
  · obtain ⟨len, hread⟩ := read_u32_le_isSome (buf.drop offset)
      (by rw [List.length_drop]; omega)
    have hrhs : amendedCorruptCond buf offset max ↔
        (len = 0 ∨ max < len ∨
          (4 + len ≤ buf.length - offset ∧
            (len < 4 ∨
             crcMismatchCond ((buf.drop (offset + 4)).take len) len ∨
             (((buf.drop (offset + 4)).take len).take (len - 4)).length < 17 ∨
             keyLenZeroCond (((buf.drop (offset + 4)).take len).take (len - 4)) ∨
             lenSumMismatchCond (((buf.drop (offset + 4)).take len).take (len - 4)) ∨
             opInvalidCond (((buf.drop (offset + 4)).take len).take (len - 4))))) := by
      unfold amendedCorruptCond
      constructor
      · rintro ⟨len2, hlen2, hp⟩
        rw [hread] at hlen2
        injection hlen2 with he
        subst he
        exact hp
      · intro hp
        exact ⟨len, hread, hp⟩
    rw [hrhs]
    unfold decode_record
    simp only [if_neg h1, hread]
    by_cases h2 : len = 0 ∨ max < len
    · simp only [if_pos h2]
      constructor
      · intro _
        rcases h2 with h | h
        · exact Or.inl h
        · exact Or.inr (Or.inl h)
      · intro _
        exact ⟨"invalid len", rfl⟩
    · simp only [if_neg h2]
      by_cases h3 : buf.length - offset < 4 + len
      · simp only [if_pos h3]
        constructor
        · rintro ⟨s, hs⟩
          simp at hs
        · intro hp
          rcases hp with h | h | ⟨hp4, _⟩
          · exact absurd (Or.inl h) h2
          · exact absurd (Or.inr h) h2
          · omega
      · simp only [if_neg h3]
        have hrestlen : ((buf.drop (offset + 4)).take len).length = len := by
          rw [List.length_take, List.length_drop]
          omega
        simp only [hrestlen]
        by_cases h4 : len < 4
        · simp only [if_pos h4]
          constructor
          · intro _
            exact Or.inr (Or.inr ⟨by omega, Or.inl h4⟩)
          · intro _
            exact ⟨"record too short", rfl⟩
        · simp only [if_neg h4]
          obtain ⟨c, hc⟩ := read_u32_le_isSome
            (((buf.drop (offset + 4)).take len).drop (len - 4))
            (by rw [List.length_drop, hrestlen]; omega)
          simp only [hc]
          by_cases h5 : crc32 (((buf.drop (offset + 4)).take len).take (len - 4)) ≠ c
          · simp only [if_pos h5]
            constructor
            · intro _
              exact Or.inr (Or.inr ⟨by omega,
                Or.inr (Or.inl ⟨c, hc, fun he => h5 he.symm⟩)⟩)
            · intro _
              exact ⟨"crc mismatch", rfl⟩
          · simp only [if_neg h5]
            push_neg at h5
            have hblen : (((buf.drop (offset + 4)).take len).take (len - 4)).length = len - 4 := by
              rw [List.length_take, hrestlen]
              omega
            by_cases h6 : (((buf.drop (offset + 4)).take len).take (len - 4)).length <
                1 + 8 + 4 + 4
            · simp only [if_pos h6]
              constructor
              · intro _
                exact Or.inr (Or.inr ⟨by omega, Or.inr (Or.inr (Or.inl (by omega)))⟩)
              · intro _
                exact ⟨"body too short", rfl⟩
            · simp only [if_neg h6]
              have hlen17 : 17 ≤ len - 4 := by omega
              obtain ⟨sq, hsq⟩ := read_u64_le_isSome
                ((((buf.drop (offset + 4)).take len).take (len - 4)).drop 1)
                (by rw [List.length_drop]; omega)
              obtain ⟨kl, hkl⟩ := read_u32_le_isSome
                ((((buf.drop (offset + 4)).take len).take (len - 4)).drop (1 + 8))
                (by rw [List.length_drop]; omega)
              obtain ⟨vl, hvl⟩ := read_u32_le_isSome
                ((((buf.drop (offset + 4)).take len).take (len - 4)).drop (1 + 8 + 4))
                (by rw [List.length_drop]; omega)
              have hkl9 : read_u32_le
                  ((((buf.drop (offset + 4)).take len).take (len - 4)).drop 9) = some kl := hkl
              have hvl13 : read_u32_le
                  ((((buf.drop (offset + 4)).take len).take (len - 4)).drop 13) = some vl := hvl
              simp only [hsq, hkl, hvl]
              by_cases h7 : kl = 0
              · simp only [if_pos h7]
                constructor
                · intro _
                  refine Or.inr (Or.inr ⟨by omega,
                    Or.inr (Or.inr (Or.inr (Or.inl ?_)))⟩)
                  unfold keyLenZeroCond
                  rw [← h7]
                  exact hkl9
                · intro _
                  exact ⟨"key_len is 0", rfl⟩
              · simp only [if_neg h7]
                by_cases h8 : 1 + 8 + 4 + 4 + kl + vl ≠
                    (((buf.drop (offset + 4)).take len).take (len - 4)).length
                · simp only [if_pos h8]
                  constructor
                  · intro _
                    exact Or.inr (Or.inr ⟨by omega,
                      Or.inr (Or.inr (Or.inr (Or.inr (Or.inl ⟨kl, vl, hkl9, hvl13, h8⟩))))⟩)
                  · intro _
                    exact ⟨"length mismatch - body len doesnt match what is described in payload metadata", rfl⟩
                · simp only [if_neg h8]
                  cases ho : Op.tryFrom
                      ((((buf.drop (offset + 4)).take len).take (len - 4)).getD 0 0) with
                  | error e2 =>
                    simp only [ho]
                    obtain ⟨hne1, hne2, he2⟩ := Op.tryFrom_error_elim _ _ ho
                    constructor
                    · intro _
                      refine Or.inr (Or.inr ⟨by omega,
                        Or.inr (Or.inr (Or.inr (Or.inr (Or.inr ⟨_, ?_, hne1, hne2⟩))))⟩)
                      refine head?_eq_getD _ ?_
                      intro hnil
                      rw [hnil] at hblen
                      simp at hblen
                      omega
                    · intro _
                      subst he2
                      exact ⟨"invalid op code found", rfl⟩
                  | ok op2 =>
                    simp only [ho]
                    constructor
                    · rintro ⟨s, hs⟩
                      simp at hs
                    · intro hp
                      rcases hp with h | h | ⟨_, hrest⟩
                      · exact (h2 (Or.inl h)).elim
                      · exact (h2 (Or.inr h)).elim
                      · rcases hrest with h | ⟨c2, hc2, hne⟩ | h | hkz |
                          ⟨kl2, vl2, hkl2, hvl2, hsum⟩ | ⟨b, hb, hb1, hb2⟩
                        · exact absurd h h4
                        · rw [hc] at hc2
                          injection hc2 with hcc
                          subst hcc
                          exact (hne h5.symm).elim
                        · exact absurd h h6
                        · unfold keyLenZeroCond at hkz
                          rw [hkl9] at hkz
                          injection hkz with h0
                          exact (h7 h0).elim
                        · rw [hkl9] at hkl2
                          rw [hvl13] at hvl2
                          injection hkl2 with hkl2e
                          injection hvl2 with hvl2e
                          subst hkl2e
                          subst hvl2e
                          exact (h8 hsum).elim
                        · rw [head?_eq_getD _ (by
                            intro hnil
                            rw [hnil] at hblen
                            simp at hblen
                            omega)] at hb
                          injection hb with hbe
                          subst hbe
                          rcases Op.tryFrom_ok_elim _ _ ho with h12 | h12
                          · exact (hb1 h12).elim
                          · exact (hb2 h12).elim

end Lsmdb

namespace Lsmdb

/-- Naming half of the corruption characterization: whenever decode_record
reports Corruption with message s, the invariant that s names is indeed
violated for the record at the given offset. -/
theorem decode_corruption_named (buf : List Nat) (offset max : Nat) :
    ∀ s, decode_record buf offset max = .error (.Corruption s) →
      namedCorruptCond buf offset max s := by
  intro s hs
  unfold namedCorruptCond
  by_cases h1 : buf.length - offset < 4
  · unfold decode_record at hs
    rw [if_pos h1] at hs
    simp at hs
  · obtain ⟨len, hread⟩ := read_u32_le_isSome (buf.drop offset)
      (by rw [List.length_drop]; omega)
    unfold decode_record at hs
    simp only [if_neg h1, hread] at hs
    by_cases h2 : len = 0 ∨ max < len
    · simp only [if_pos h2] at hs
      simp only [Except.error.injEq, WalDecodeError.Corruption.injEq] at hs
      exact ⟨len, hread, Or.inl ⟨hs.symm, h2⟩⟩
    · simp only [if_neg h2] at hs
      by_cases h3 : buf.length - offset < 4 + len
      · simp only [if_pos h3] at hs
        simp at hs
      · simp only [if_neg h3] at hs
        have hrestlen : ((buf.drop (offset + 4)).take len).length = len := by
          rw [List.length_take, List.length_drop]
          omega
        simp only [hrestlen] at hs
        by_cases h4 : len < 4
        · simp only [if_pos h4] at hs
          simp only [Except.error.injEq, WalDecodeError.Corruption.injEq] at hs
          exact ⟨len, hread, Or.inr ⟨by omega, Or.inl ⟨hs.symm, h4⟩⟩⟩
        · simp only [if_neg h4] at hs
          obtain ⟨c, hc⟩ := read_u32_le_isSome
            (((buf.drop (offset + 4)).take len).drop (len - 4))
            (by rw [List.length_drop, hrestlen]; omega)
          simp only [hc] at hs
          by_cases h5 : crc32 (((buf.drop (offset + 4)).take len).take (len - 4)) ≠ c
          · simp only [if_pos h5] at hs
            simp only [Except.error.injEq, WalDecodeError.Corruption.injEq] at hs
            exact ⟨len, hread, Or.inr ⟨by omega,
              Or.inr (Or.inl ⟨hs.symm, c, hc, fun he => h5 he.symm⟩)⟩⟩
          · simp only [if_neg h5] at hs
            push_neg at h5
            have hblen : (((buf.drop (offset + 4)).take len).take (len - 4)).length =
                len - 4 := by
              rw [List.length_take, hrestlen]
              omega
            by_cases h6 : (((buf.drop (offset + 4)).take len).take (len - 4)).length <
                1 + 8 + 4 + 4
            · simp only [if_pos h6] at hs
              simp only [Except.error.injEq, WalDecodeError.Corruption.injEq] at hs
              exact ⟨len, hread, Or.inr ⟨by omega, Or.inr (Or.inr (Or.inl ⟨hs.symm, h6⟩))⟩⟩
            · simp only [if_neg h6] at hs
              have hlen17 : 17 ≤ len - 4 := by omega
              obtain ⟨sq, hsq⟩ := read_u64_le_isSome
                ((((buf.drop (offset + 4)).take len).take (len - 4)).drop 1)
                (by rw [List.length_drop]; omega)
              obtain ⟨kl, hkl⟩ := read_u32_le_isSome
                ((((buf.drop (offset + 4)).take len).take (len - 4)).drop (1 + 8))
                (by rw [List.length_drop]; omega)
              obtain ⟨vl, hvl⟩ := read_u32_le_isSome
                ((((buf.drop (offset + 4)).take len).take (len - 4)).drop (1 + 8 + 4))
                (by rw [List.length_drop]; omega)
              have hkl9 : read_u32_le
                  ((((buf.drop (offset + 4)).take len).take (len - 4)).drop 9) =
                    some kl := hkl
              have hvl13 : read_u32_le
                  ((((buf.drop (offset + 4)).take len).take (len - 4)).drop 13) =
                    some vl := hvl
              simp only [hsq, hkl, hvl] at hs
              by_cases h7 : kl = 0
              · simp only [if_pos h7] at hs
                simp only [Except.error.injEq, WalDecodeError.Corruption.injEq] at hs
                refine ⟨len, hread, Or.inr ⟨by omega,
                  Or.inr (Or.inr (Or.inr (Or.inl ⟨hs.symm, ?_⟩)))⟩⟩
                unfold keyLenZeroCond
                rw [← h7]
                exact hkl9
              · simp only [if_neg h7] at hs
                by_cases h8 : 1 + 8 + 4 + 4 + kl + vl ≠
                    (((buf.drop (offset + 4)).take len).take (len - 4)).length
                · simp only [if_pos h8] at hs
                  simp only [Except.error.injEq, WalDecodeError.Corruption.injEq] at hs
                  exact ⟨len, hread, Or.inr ⟨by omega,
                    Or.inr (Or.inr (Or.inr (Or.inr (Or.inl
                      ⟨hs.symm, kl, vl, hkl9, hvl13, h8⟩))))⟩⟩
                · simp only [if_neg h8] at hs
                  cases ho : Op.tryFrom
                      ((((buf.drop (offset + 4)).take len).take (len - 4)).getD 0 0) with
                  | error e2 =>
                    simp only [ho] at hs
                    obtain ⟨hne1, hne2, he2⟩ := Op.tryFrom_error_elim _ _ ho
                    subst he2
                    simp only [Except.error.injEq, WalDecodeError.Corruption.injEq] at hs
                    refine ⟨len, hread, Or.inr ⟨by omega,
                      Or.inr (Or.inr (Or.inr (Or.inr (Or.inr
                        ⟨hs.symm, _, ?_, hne1, hne2⟩))))⟩⟩
                    refine head?_eq_getD _ ?_
                    intro hnil
                    rw [hnil] at hblen
                    simp at hblen
                    omega
                  | ok op2 =>
                    simp only [ho] at hs
                    simp at hs

/-- C5 (amended): decode_record returns a Corruption error, naming the
specific violated invariant, exactly when one of the following holds for the
record at the given offset: the length field is zero or exceeds
max_record_len; or — with the full record present — the length field is less
than 4 (too short to contain the trailing CRC); the trailing CRC32 does not
match the CRC32 of the record body; the checksummed body is shorter than the
17-byte fixed header; the key length field is zero; the declared key and value
lengths do not sum exactly to the body size; or the op byte is neither 1 (Put)
nor 2 (Delete). The first conjunct is the "exactly when"; the second is the
naming: every message decode_record emits names an invariant that is indeed
violated. -/
theorem decode_corruption_iff (buf : List Nat) (offset max : Nat) :
    ((∃ s, decode_record buf offset max = .error (.Corruption s)) ↔
      amendedCorruptCond buf offset max) ∧
    (∀ s, decode_record buf offset max = .error (.Corruption s) →
      namedCorruptCond buf offset max s) :=
  ⟨decode_corruption_exists_iff buf offset max, decode_corruption_named buf offset max⟩

end Lsmdb
